import Mathlib

/-!
Verification of the `subtract_nowrap` numpy ufunc kernel
(`pupil_src/shared_modules/video_capture/_subtract_nowrap.c`).

The C file defines a single strided loop

```
static void subtract_nowrap_uint8(char **args, npy_intp *dimensions,
                                  npy_intp* steps, void* data)
{
    npy_intp i;
    npy_intp n = dimensions[0];
    npy_uint8 *in1 = args[0], *in2 = args[1];
    npy_intp in1_step = steps[0], in2_step = steps[1];
    for (i = 0; i < n; i++) {
        if (*in1 > *in2) { *in1 -= *in2; } else { *in1 = 0; }
        in1 += in1_step;
        in2 += in2_step;
    }
}
```

together with module-initialisation code registering it as a ufunc.

We embed the kernel shallowly: memory is a total map from integer addresses
to byte values (naturals; genuine uint8 memory always holds values below
256, which theorems take as a hypothesis where it matters), one loop
iteration reads the two current addresses, stores the clamped difference
through the first pointer (a uint8 store, hence reduced mod 256), and
advances both pointers by their steps.  The embedding also records the
trace of addresses read and written, so that no-op and frame claims are
about actual memory accesses.  The signed element count `n : ℤ` together
with the signed counter of `for (i = 0; i < n; i++)` yields `n.toNat`
iterations.
-/

namespace SubtractNowrap

/-- One loop-body computation of `subtract_nowrap_uint8` on the two byte
values just read: `if (*in1 > *in2) *in1 -= *in2; else *in1 = 0;`.
The subtraction is performed after integer promotion and the result is
stored back into a `npy_uint8`, hence reduced modulo 256 (the guard makes
the reduction vacuous for genuine byte values). -/
def subByte (x y : ℕ) : ℕ :=
  if y < x then (x - y) % 256 else 0

/-- Outcome of a kernel invocation: the final memory together with the
chronological traces of addresses read and written. -/
structure KernelResult where
  mem : ℤ → ℕ
  reads : List ℤ
  writes : List ℤ

/-- The loop of `subtract_nowrap_uint8`, running for `k` iterations with the
current first and second pointers `p1`, `p2` and the fixed steps `s1`, `s2`.
Each iteration reads `*in1` and `*in2`, writes the clamped difference
through `in1`, and advances both pointers. -/
def subLoop (s1 s2 : ℤ) : ℕ → (ℤ → ℕ) → ℤ → ℤ → KernelResult
  | 0, m, _, _ => ⟨m, [], []⟩
  | k + 1, m, p1, p2 =>
    let r := subLoop s1 s2 k (Function.update m p1 (subByte (m p1) (m p2))) (p1 + s1) (p2 + s2)
    ⟨r.mem, p1 :: p2 :: r.reads, p1 :: r.writes⟩

/-- The kernel `subtract_nowrap_uint8`.  `arg0`, `arg1` are the base
addresses `args[0]`, `args[1]`; `n` is `dimensions[0]`; `step0`, `step1` are
`steps[0]`, `steps[1]`.  The signed loop `for (i = 0; i < n; i++)` executes
`max n 0 = n.toNat` iterations. -/
def subtract_nowrap_uint8 (m : ℤ → ℕ) (arg0 arg1 : ℤ) (n : ℤ) (step0 step1 : ℤ) :
    KernelResult :=
  subLoop step0 step1 n.toNat m arg0 arg1

/-- Element-wise clamped subtraction into a separate buffer, following the
spec's description of `apply` with a non-aliased output: each output element
is the clamped difference of the co-indexed input pair. -/
def applySeparate (a b : List ℕ) : List ℕ :=
  List.zipWith subByte a b

/-- The `n` byte values of the stride-`s` stream based at `p`. -/
def readStream (m : ℤ → ℕ) (p s : ℤ) : ℕ → List ℕ
  | 0 => []
  | k + 1 => m p :: readStream m (p + s) s k

theorem subLoop_zero (s1 s2 : ℤ) (m : ℤ → ℕ) (p1 p2 : ℤ) :
    subLoop s1 s2 0 m p1 p2 = ⟨m, [], []⟩ := rfl

theorem subLoop_succ_mem (s1 s2 : ℤ) (k : ℕ) (m : ℤ → ℕ) (p1 p2 : ℤ) :
    (subLoop s1 s2 (k + 1) m p1 p2).mem
      = (subLoop s1 s2 k (Function.update m p1 (subByte (m p1) (m p2)))
          (p1 + s1) (p2 + s2)).mem := rfl

theorem subLoop_succ_reads (s1 s2 : ℤ) (k : ℕ) (m : ℤ → ℕ) (p1 p2 : ℤ) :
    (subLoop s1 s2 (k + 1) m p1 p2).reads
      = p1 :: p2 :: (subLoop s1 s2 k (Function.update m p1 (subByte (m p1) (m p2)))
          (p1 + s1) (p2 + s2)).reads := rfl

theorem subLoop_succ_writes (s1 s2 : ℤ) (k : ℕ) (m : ℤ → ℕ) (p1 p2 : ℤ) :
    (subLoop s1 s2 (k + 1) m p1 p2).writes
      = p1 :: (subLoop s1 s2 k (Function.update m p1 (subByte (m p1) (m p2)))
          (p1 + s1) (p2 + s2)).writes := rfl

/-- Frame lemma: an address the loop never writes keeps its initial value. -/
theorem subLoop_mem_frame (s1 s2 : ℤ) :
    ∀ (k : ℕ) (m : ℤ → ℕ) (p1 p2 q : ℤ),
      (∀ i : ℕ, i < k → q ≠ p1 + (i : ℤ) * s1) →
      (subLoop s1 s2 k m p1 p2).mem q = m q := by
  intro k
  induction k with
  | zero => intro m p1 p2 q _; rfl
  | succ k ih =>
    intro m p1 p2 q hq
    rw [subLoop_succ_mem, ih]
    · refine Function.update_noteq ?_ _ _
      have h0 := hq 0 (by omega)
      intro hc
      apply h0
      rw [hc]; push_cast; ring
    · intro i hi
      have h := hq (i + 1) (by omega)
      intro hc
      apply h
      rw [hc]; push_cast; ring

/-- Value lemma: when the write positions are pairwise distinct and the
second stream's read positions avoid the write positions, the value left at
the `i`-th write position is the clamped difference of the initial byte
values of the co-indexed pair. -/
theorem subLoop_mem_write (s1 s2 : ℤ) :
    ∀ (k : ℕ) (m : ℤ → ℕ) (p1 p2 : ℤ) (i : ℕ),
      (∀ a b : ℕ, a < k → b < k → a ≠ b → p1 + (a : ℤ) * s1 ≠ p1 + (b : ℤ) * s1) →
      (∀ a b : ℕ, a < k → b < k → p2 + (a : ℤ) * s2 ≠ p1 + (b : ℤ) * s1) →
      i < k →
      (subLoop s1 s2 k m p1 p2).mem (p1 + (i : ℤ) * s1)
        = subByte (m (p1 + (i : ℤ) * s1)) (m (p2 + (i : ℤ) * s2)) := by
  intro k
  induction k with
  | zero => intro m p1 p2 i _ _ hi; omega
  | succ k ih =>
    intro m p1 p2 i hinj hdisj hi
    rw [subLoop_succ_mem]
    match i with
    | 0 =>
      rw [subLoop_mem_frame]
      · have hp1 : p1 + ((0 : ℕ) : ℤ) * s1 = p1 := by push_cast; ring
        have hp2 : p2 + ((0 : ℕ) : ℤ) * s2 = p2 := by push_cast; ring
        rw [hp1, hp2, Function.update_same]
      · intro j hj
        have h := hinj 0 (j + 1) (by omega) (by omega) (by omega)
        intro hc
        apply h
        rw [hc]; push_cast; ring
    | i' + 1 =>
      have hstep1 : p1 + ((i' + 1 : ℕ) : ℤ) * s1 = (p1 + s1) + (i' : ℤ) * s1 := by
        push_cast; ring
      have hstep2 : p2 + ((i' + 1 : ℕ) : ℤ) * s2 = (p2 + s2) + (i' : ℤ) * s2 := by
        push_cast; ring
      rw [hstep1]
      rw [ih (Function.update m p1 (subByte (m p1) (m p2))) (p1 + s1) (p2 + s2) i'
          ?_ ?_ (by omega)]
      · have hne1 : (p1 + s1) + (i' : ℤ) * s1 ≠ p1 := by
          have h := hinj (i' + 1) 0 (by omega) (by omega) (by omega)
          intro hc
          apply h
          push_cast
          linear_combination hc
        have hne2 : (p2 + s2) + (i' : ℤ) * s2 ≠ p1 := by
          have h := hdisj (i' + 1) 0 (by omega) (by omega)
          intro hc
          apply h
          push_cast
          linear_combination hc
        rw [Function.update_noteq hne1, Function.update_noteq hne2]
        rw [← hstep1, ← hstep2]
      · intro a b ha hb hab
        have h := hinj (a + 1) (b + 1) (by omega) (by omega) (by omega)
        intro hc
        apply h
        push_cast
        linear_combination hc
      · intro a b ha hb
        have h := hdisj (a + 1) (b + 1) (by omega) (by omega)
        intro hc
        apply h
        push_cast
        linear_combination hc

/-- Every address in the write trace is a position of the first stream. -/
theorem subLoop_writes_subset (s1 s2 : ℤ) :
    ∀ (k : ℕ) (m : ℤ → ℕ) (p1 p2 q : ℤ),
      q ∈ (subLoop s1 s2 k m p1 p2).writes →
      ∃ i : ℕ, i < k ∧ q = p1 + (i : ℤ) * s1 := by
  intro k
  induction k with
  | zero => intro m p1 p2 q hq; simp [subLoop_zero] at hq
  | succ k ih =>
    intro m p1 p2 q hq
    rw [subLoop_succ_writes] at hq
    rcases List.mem_cons.mp hq with h | h
    · exact ⟨0, by omega, by rw [h]; push_cast; ring⟩
    · obtain ⟨i, hi, he⟩ := ih _ _ _ _ h
      exact ⟨i + 1, by omega, by rw [he]; push_cast; ring⟩

/-- Every address in the read trace is a position of one of the two input
streams. -/
theorem subLoop_reads_subset (s1 s2 : ℤ) :
    ∀ (k : ℕ) (m : ℤ → ℕ) (p1 p2 q : ℤ),
      q ∈ (subLoop s1 s2 k m p1 p2).reads →
      ∃ i : ℕ, i < k ∧ (q = p1 + (i : ℤ) * s1 ∨ q = p2 + (i : ℤ) * s2) := by
  intro k
  induction k with
  | zero => intro m p1 p2 q hq; simp [subLoop_zero] at hq
  | succ k ih =>
    intro m p1 p2 q hq
    rw [subLoop_succ_reads] at hq
    rcases List.mem_cons.mp hq with h | h
    · exact ⟨0, by omega, Or.inl (by rw [h]; push_cast; ring)⟩
    rcases List.mem_cons.mp h with h | h
    · exact ⟨0, by omega, Or.inr (by rw [h]; push_cast; ring)⟩
    · obtain ⟨i, hi, he⟩ := ih _ _ _ _ h
      rcases he with he | he
      · exact ⟨i + 1, by omega, Or.inl (by rw [he]; push_cast; ring)⟩
      · exact ⟨i + 1, by omega, Or.inr (by rw [he]; push_cast; ring)⟩

/-- Self-subtraction: when both pointers coincide and move in lockstep,
every iteration writes `0`, so every stream position ends up `0`. -/
theorem subLoop_self_zero (s : ℤ) :
    ∀ (k : ℕ) (m : ℤ → ℕ) (p : ℤ) (i : ℕ), i < k →
      (subLoop s s k m p p).mem (p + (i : ℤ) * s) = 0 := by
  intro k
  induction k with
  | zero => intro m p i hi; omega
  | succ k ih =>
    intro m p i hi
    rw [subLoop_succ_mem]
    have hv : subByte (m p) (m p) = 0 := by simp [subByte]
    match i with
    | 0 =>
      have hp : p + ((0 : ℕ) : ℤ) * s = p := by push_cast; ring
      rw [hp]
      by_cases h : ∃ j : ℕ, j < k ∧ p = (p + s) + (j : ℤ) * s
      · obtain ⟨j, hj, he⟩ := h
        have hrest := ih (Function.update m p (subByte (m p) (m p))) (p + s) j hj
        rw [← he] at hrest
        exact hrest
      · push_neg at h
        rw [subLoop_mem_frame s s k _ _ _ _ h, hv, Function.update_same]
    | i' + 1 =>
      have hstep : p + ((i' + 1 : ℕ) : ℤ) * s = (p + s) + (i' : ℤ) * s := by
        push_cast; ring
      rw [hstep]
      exact ih _ _ i' (by omega)

/-- The stream contents as a map over the index range. -/
theorem readStream_eq_map (m : ℤ → ℕ) (s : ℤ) :
    ∀ (k : ℕ) (p : ℤ),
      readStream m p s k = (List.range k).map (fun i : ℕ => m (p + (i : ℤ) * s)) := by
  intro k
  induction k with
  | zero => intro p; rfl
  | succ k ih =>
    intro p
    have hhead : readStream m p s (k + 1) = m p :: readStream m (p + s) s k := rfl
    rw [hhead, ih, List.range_succ_eq_map, List.map_cons, List.map_map]
    congr 1
    · norm_num
    · refine List.map_congr_left ?_
      intro i _
      have hc : (p + s) + (i : ℤ) * s = p + ((i + 1 : ℕ) : ℤ) * s := by push_cast; ring
      simp only [Function.comp]
      rw [hc]

theorem zipWith_map_same {α β : Type} (f : β → β → β) (g h : α → β) :
    ∀ l : List α,
      List.zipWith f (l.map g) (l.map h) = l.map (fun i => f (g i) (h i)) := by
  intro l
  induction l with
  | nil => rfl
  | cons a l ih => simp [ih]

/-- Claim C1: for every element count `n` and every index `i` below `n`, one
kernel call leaves, at the `i`-th position of the first input stream (the
stream the kernel writes, in place), the value `a[i] - b[i]` when
`a[i] > b[i]` and `0` otherwise, as exact unsigned subtraction with no wrap
modulo 256; here `a`, `b` are the initial contents of the two streams, the
first stream's positions are pairwise distinct and the second stream does
not overlap them, and the value read through the first pointer is a genuine
byte. -/
theorem claimC1_clamped_subtraction_pointwise
    (m : ℤ → ℕ) (p1 p2 s1 s2 : ℤ) (n i : ℕ)
    (hinj : ∀ a b : ℕ, a < n → b < n → a ≠ b → p1 + (a : ℤ) * s1 ≠ p1 + (b : ℤ) * s1)
    (hdisj : ∀ a b : ℕ, a < n → b < n → p2 + (a : ℤ) * s2 ≠ p1 + (b : ℤ) * s1)
    (hi : i < n)
    (hbyte : m (p1 + (i : ℤ) * s1) < 256) :
    (subtract_nowrap_uint8 m p1 p2 (n : ℤ) s1 s2).mem (p1 + (i : ℤ) * s1)
      = if m (p2 + (i : ℤ) * s2) < m (p1 + (i : ℤ) * s1)
        then m (p1 + (i : ℤ) * s1) - m (p2 + (i : ℤ) * s2)
        else 0 := by
  unfold subtract_nowrap_uint8
  rw [Int.toNat_natCast]
  rw [subLoop_mem_write s1 s2 n m p1 p2 i hinj hdisj hi]
  unfold subByte
  split
  · exact Nat.mod_eq_of_lt (lt_of_le_of_lt (Nat.sub_le _ _) hbyte)
  · rfl

/-- A concrete byte memory: value 5 at address 0, value 3 at address 1,
zero elsewhere. -/
def memA : ℤ → ℕ := fun q => if q = 0 then 5 else if q = 1 then 3 else 0

theorem claimC1_witness :
    (subtract_nowrap_uint8 memA 0 1 1 1 1).mem 0 = 2 := by
  have h := claimC1_clamped_subtraction_pointwise memA 0 1 1 1 1 0
    (fun a b _ _ hab => absurd (by omega : a = b) hab)
    (by
      intro a b ha hb
      have ha0 : a = 0 := by omega
      have hb0 : b = 0 := by omega
      subst ha0; subst hb0
      norm_num)
    (by omega)
    (by norm_num [memA])
  norm_num [memA] at h
  exact h

/-- Claim C4: under the same stream disjointness, the value the kernel
leaves at every written position is at most 255 and never exceeds the
initial value of the first operand at that position. -/
theorem claimC4_result_bounded
    (m : ℤ → ℕ) (p1 p2 s1 s2 : ℤ) (n i : ℕ)
    (hinj : ∀ a b : ℕ, a < n → b < n → a ≠ b → p1 + (a : ℤ) * s1 ≠ p1 + (b : ℤ) * s1)
    (hdisj : ∀ a b : ℕ, a < n → b < n → p2 + (a : ℤ) * s2 ≠ p1 + (b : ℤ) * s1)
    (hi : i < n) :
    (subtract_nowrap_uint8 m p1 p2 (n : ℤ) s1 s2).mem (p1 + (i : ℤ) * s1)
        ≤ m (p1 + (i : ℤ) * s1)
    ∧ (subtract_nowrap_uint8 m p1 p2 (n : ℤ) s1 s2).mem (p1 + (i : ℤ) * s1) ≤ 255 := by
  unfold subtract_nowrap_uint8
  rw [Int.toNat_natCast]
  rw [subLoop_mem_write s1 s2 n m p1 p2 i hinj hdisj hi]
  unfold subByte
  constructor
  · split
    · exact le_trans (Nat.mod_le _ _) (Nat.sub_le _ _)
    · exact Nat.zero_le _
  · split
    · have h := Nat.mod_lt (m (p1 + (i : ℤ) * s1) - m (p2 + (i : ℤ) * s2))
        (show 0 < 256 by norm_num)
      omega
    · exact Nat.zero_le _

theorem claimC4_witness :
    (subtract_nowrap_uint8 memA 0 1 1 1 1).mem 0 ≤ memA 0
    ∧ (subtract_nowrap_uint8 memA 0 1 1 1 1).mem 0 ≤ 255 := by
  have h := claimC4_result_bounded memA 0 1 1 1 1 0
    (fun a b _ _ hab => absurd (by omega : a = b) hab)
    (by
      intro a b ha hb
      have ha0 : a = 0 := by omega
      have hb0 : b = 0 := by omega
      subst ha0; subst hb0
      norm_num)
    (by omega)
  norm_num at h
  exact h

/-- Claim C5: with element count 0 the call is a no-op: the memory is left
exactly as it was, and the traces show that no address is read and no
address is written. -/
theorem claimC5_zero_count_noop (m : ℤ → ℕ) (p1 p2 s1 s2 : ℤ) :
    (subtract_nowrap_uint8 m p1 p2 0 s1 s2).mem = m
    ∧ (subtract_nowrap_uint8 m p1 p2 0 s1 s2).reads = []
    ∧ (subtract_nowrap_uint8 m p1 p2 0 s1 s2).writes = [] :=
  ⟨rfl, rfl, rfl⟩

/-- Claim C6: subtracting a stream from itself (both pointers equal, both
steps equal) leaves zero at every stream position, whatever the stride. -/
theorem claimC6_self_subtraction_zero (m : ℤ → ℕ) (p s : ℤ) (n i : ℕ) (hi : i < n) :
    (subtract_nowrap_uint8 m p p (n : ℤ) s s).mem (p + (i : ℤ) * s) = 0 := by
  unfold subtract_nowrap_uint8
  rw [Int.toNat_natCast]
  exact subLoop_self_zero s n m p i hi

theorem claimC6_witness :
    (subtract_nowrap_uint8 memA 0 0 2 1 1).mem 0 = 0
    ∧ (subtract_nowrap_uint8 memA 0 0 2 1 1).mem 1 = 0 := by
  constructor
  · have h := claimC6_self_subtraction_zero memA 0 1 2 0 (by omega)
    norm_num at h
    exact h
  · have h := claimC6_self_subtraction_zero memA 0 1 2 1 (by omega)
    norm_num at h
    exact h

/-- Claim C10: for every non-positive element count, including negative
ones admitted by the signed counter, the loop body never runs: the call
reads nothing, writes nothing and leaves the memory unchanged. -/
theorem claimC10_nonpositive_count_noop
    (m : ℤ → ℕ) (p1 p2 s1 s2 n : ℤ) (hn : n ≤ 0) :
    (subtract_nowrap_uint8 m p1 p2 n s1 s2).mem = m
    ∧ (subtract_nowrap_uint8 m p1 p2 n s1 s2).reads = []
    ∧ (subtract_nowrap_uint8 m p1 p2 n s1 s2).writes = [] := by
  unfold subtract_nowrap_uint8
  rw [Int.toNat_of_nonpos hn]
  exact ⟨rfl, rfl, rfl⟩

theorem claimC10_witness :
    (subtract_nowrap_uint8 memA 0 1 (-5) 1 1).mem = memA
    ∧ (subtract_nowrap_uint8 memA 0 1 (-5) 1 1).reads = []
    ∧ (subtract_nowrap_uint8 memA 0 1 (-5) 1 1).writes = [] :=
  claimC10_nonpositive_count_noop memA 0 1 1 1 (-5) (by norm_num)

/-- Claim C2: the kernel always writes through its first pointer, i.e. the
output is aliased to the first input; the stream of values it leaves there
is exactly the element-wise clamped subtraction of the original two input
streams written to a separate buffer, so aliasing never changes a result
value. -/
theorem claimC2_alias_equals_separate_buffer
    (m : ℤ → ℕ) (p1 p2 s1 s2 : ℤ) (n : ℕ)
    (hinj : ∀ a b : ℕ, a < n → b < n → a ≠ b → p1 + (a : ℤ) * s1 ≠ p1 + (b : ℤ) * s1)
    (hdisj : ∀ a b : ℕ, a < n → b < n → p2 + (a : ℤ) * s2 ≠ p1 + (b : ℤ) * s1) :
    readStream (subtract_nowrap_uint8 m p1 p2 (n : ℤ) s1 s2).mem p1 s1 n
      = applySeparate (readStream m p1 s1 n) (readStream m p2 s2 n) := by
  unfold applySeparate
  rw [readStream_eq_map, readStream_eq_map, readStream_eq_map, zipWith_map_same]
  refine List.map_congr_left ?_
  intro i hi
  have hi2 : i < n := List.mem_range.mp hi
  unfold subtract_nowrap_uint8
  rw [Int.toNat_natCast]
  exact subLoop_mem_write s1 s2 n m p1 p2 i hinj hdisj hi2

/-- A concrete byte memory holding the spec's scenario: a = [5, 2, 10, 0]
at addresses 0..3 and b = [3, 7, 10, 1] at addresses 10..13. -/
def memB : ℤ → ℕ := fun q =>
  if q = 0 then 5 else if q = 1 then 2 else if q = 2 then 10 else if q = 3 then 0 else
  if q = 10 then 3 else if q = 11 then 7 else if q = 12 then 10 else if q = 13 then 1 else 0

theorem claimC2_witness :
    readStream (subtract_nowrap_uint8 memB 0 10 4 1 1).mem 0 1 4
      = applySeparate (readStream memB 0 1 4) (readStream memB 10 1 4) := by
  refine claimC2_alias_equals_separate_buffer memB 0 10 1 1 4 ?_ ?_
  · intro a b ha hb hab hc
    apply hab
    omega
  · intro a b ha hb hc
    omega

/-- Claim C3: after a call with count `n` the written stream holds the
clamped difference at all `n` positions (fully populated); every address in
the write trace is a position of the first stream and every address in the
read trace is a position of one of the two streams (no other effect); any
address outside the first stream's positions keeps its value; and the
second input stream is unchanged. -/
theorem claimC3_full_population_and_frame
    (m : ℤ → ℕ) (p1 p2 s1 s2 : ℤ) (n : ℕ)
    (hinj : ∀ a b : ℕ, a < n → b < n → a ≠ b → p1 + (a : ℤ) * s1 ≠ p1 + (b : ℤ) * s1)
    (hdisj : ∀ a b : ℕ, a < n → b < n → p2 + (a : ℤ) * s2 ≠ p1 + (b : ℤ) * s1) :
    (∀ i : ℕ, i < n →
        (subtract_nowrap_uint8 m p1 p2 (n : ℤ) s1 s2).mem (p1 + (i : ℤ) * s1)
          = subByte (m (p1 + (i : ℤ) * s1)) (m (p2 + (i : ℤ) * s2)))
    ∧ (∀ q : ℤ, (∀ i : ℕ, i < n → q ≠ p1 + (i : ℤ) * s1) →
        (subtract_nowrap_uint8 m p1 p2 (n : ℤ) s1 s2).mem q = m q)
    ∧ (∀ q : ℤ, q ∈ (subtract_nowrap_uint8 m p1 p2 (n : ℤ) s1 s2).writes →
        ∃ i : ℕ, i < n ∧ q = p1 + (i : ℤ) * s1)
    ∧ (∀ q : ℤ, q ∈ (subtract_nowrap_uint8 m p1 p2 (n : ℤ) s1 s2).reads →
        ∃ i : ℕ, i < n ∧ (q = p1 + (i : ℤ) * s1 ∨ q = p2 + (i : ℤ) * s2))
    ∧ (∀ i : ℕ, i < n →
        (subtract_nowrap_uint8 m p1 p2 (n : ℤ) s1 s2).mem (p2 + (i : ℤ) * s2)
          = m (p2 + (i : ℤ) * s2)) := by
  unfold subtract_nowrap_uint8
  rw [Int.toNat_natCast]
  refine ⟨?_, ?_, ?_, ?_, ?_⟩
  · intro i hi
    exact subLoop_mem_write s1 s2 n m p1 p2 i hinj hdisj hi
  · intro q hq
    exact subLoop_mem_frame s1 s2 n m p1 p2 q hq
  · intro q hq
    exact subLoop_writes_subset s1 s2 n m p1 p2 q hq
  · intro q hq
    exact subLoop_reads_subset s1 s2 n m p1 p2 q hq
  · intro i hi
    exact subLoop_mem_frame s1 s2 n m p1 p2 _ (fun j hj => hdisj i j hi hj)

theorem claimC3_witness :
    (subtract_nowrap_uint8 memB 0 10 4 1 1).mem 0 = 2
    ∧ (subtract_nowrap_uint8 memB 0 10 4 1 1).mem 7 = 0
    ∧ (subtract_nowrap_uint8 memB 0 10 4 1 1).mem 10 = 3 := by
  obtain ⟨h1, h2, _, _, h5⟩ := claimC3_full_population_and_frame memB 0 10 1 1 4
    (by
      intro a b ha hb hab hc
      apply hab
      omega)
    (by
      intro a b ha hb hc
      omega)
  refine ⟨?_, ?_, ?_⟩
  · have h := h1 0 (by omega)
    norm_num [memB, subByte] at h
    exact h
  · have h := h2 7 (by intro i hi; omega)
    norm_num [memB] at h
    exact h
  · have h := h5 0 (by omega)
    norm_num [memB] at h
    exact h

/-- Claim C7: running the kernel over stride-2 views (every other element
of larger buffers) writes at the selected positions exactly the values the
kernel computes over tightly packed stride-1 copies of the selected
elements, and leaves every non-selected address of the strided buffer
unchanged. -/
theorem claimC7_strided_matches_packed
    (m mp : ℤ → ℕ) (p1 p2 q1 q2 : ℤ) (n : ℕ)
    (hcopyA : ∀ j : ℕ, j < n → mp (q1 + (j : ℤ)) = m (p1 + (j : ℤ) * 2))
    (hcopyB : ∀ j : ℕ, j < n → mp (q2 + (j : ℤ)) = m (p2 + (j : ℤ) * 2))
    (hdisjS : ∀ a b : ℕ, a < n → b < n → p2 + (a : ℤ) * 2 ≠ p1 + (b : ℤ) * 2)
    (hdisjP : ∀ a b : ℕ, a < n → b < n → q2 + (a : ℤ) ≠ q1 + (b : ℤ)) :
    (∀ i : ℕ, i < n →
      (subtract_nowrap_uint8 m p1 p2 (n : ℤ) 2 2).mem (p1 + (i : ℤ) * 2)
        = (subtract_nowrap_uint8 mp q1 q2 (n : ℤ) 1 1).mem (q1 + (i : ℤ)))
    ∧ (∀ q : ℤ, (∀ i : ℕ, i < n → q ≠ p1 + (i : ℤ) * 2) →
      (subtract_nowrap_uint8 m p1 p2 (n : ℤ) 2 2).mem q = m q) := by
  unfold subtract_nowrap_uint8
  rw [Int.toNat_natCast]
  constructor
  · intro i hi
    have hs := subLoop_mem_write 2 2 n m p1 p2 i
      (by
        intro a b ha hb hab hc
        apply hab
        omega)
      hdisjS hi
    have hp := subLoop_mem_write 1 1 n mp q1 q2 i
      (by
        intro a b ha hb hab hc
        apply hab
        omega)
      (by
        intro a b ha hb
        simpa using hdisjP a b ha hb)
      hi
    rw [hs]
    have hq1 : q1 + (i : ℤ) = q1 + (i : ℤ) * 1 := by ring
    rw [hq1, hp]
    have ha : mp (q1 + (i : ℤ) * 1) = m (p1 + (i : ℤ) * 2) := by
      rw [show q1 + (i : ℤ) * 1 = q1 + (i : ℤ) from by ring]
      exact hcopyA i hi
    have hb : mp (q2 + (i : ℤ) * 1) = m (p2 + (i : ℤ) * 2) := by
      rw [show q2 + (i : ℤ) * 1 = q2 + (i : ℤ) from by ring]
      exact hcopyB i hi
    rw [ha, hb]
  · intro q hq
    exact subLoop_mem_frame 2 2 n m p1 p2 q hq

/-- A larger strided buffer: the selected elements (stride 2) of the first
stream are 9, 4 at addresses 0, 2, with junk 77, 88 in between; the
selected elements of the second stream are 5, 6 at addresses 20, 22. -/
def memS : ℤ → ℕ := fun q =>
  if q = 0 then 9 else if q = 1 then 77 else if q = 2 then 4 else if q = 3 then 88 else
  if q = 20 then 5 else if q = 21 then 66 else if q = 22 then 6 else 0

/-- The tightly packed copies of the selected elements of `memS`:
a = [9, 4] at 100..101 and b = [5, 6] at 200..201. -/
def memP : ℤ → ℕ := fun q =>
  if q = 100 then 9 else if q = 101 then 4 else
  if q = 200 then 5 else if q = 201 then 6 else 0

theorem claimC7_witness :
    (subtract_nowrap_uint8 memS 0 20 2 2 2).mem 0
      = (subtract_nowrap_uint8 memP 100 200 2 1 1).mem 100
    ∧ (subtract_nowrap_uint8 memS 0 20 2 2 2).mem 2
      = (subtract_nowrap_uint8 memP 100 200 2 1 1).mem 101
    ∧ (subtract_nowrap_uint8 memS 0 20 2 2 2).mem 1 = 77 := by
  obtain ⟨h1, h2⟩ := claimC7_strided_matches_packed memS memP 0 20 100 200 2
    (by
      intro j hj
      interval_cases j <;> norm_num [memS, memP])
    (by
      intro j hj
      interval_cases j <;> norm_num [memS, memP])
    (by
      intro a b ha hb hc
      omega)
    (by
      intro a b ha hb hc
      omega)
  refine ⟨?_, ?_, ?_⟩
  · have h := h1 0 (by omega)
    norm_num at h
    exact h
  · have h := h1 1 (by omega)
    norm_num at h
    exact h
  · have h := h2 1 (by intro i hi; omega)
    norm_num [memS] at h
    exact h

/-- Claim C9: each output element depends only on the co-indexed input
pair: two runs on (possibly different) non-overlapping stream setups whose
initial values agree at index `i` leave the same value at the `i`-th
written position, whatever the other elements hold. -/
theorem claimC9_per_index_independence
    (m m2 : ℤ → ℕ) (p1 p2 q1 q2 s1 s2 t1 t2 : ℤ) (n n2 i : ℕ)
    (hinj1 : ∀ a b : ℕ, a < n → b < n → a ≠ b → p1 + (a : ℤ) * s1 ≠ p1 + (b : ℤ) * s1)
    (hdisj1 : ∀ a b : ℕ, a < n → b < n → p2 + (a : ℤ) * s2 ≠ p1 + (b : ℤ) * s1)
    (hinj2 : ∀ a b : ℕ, a < n2 → b < n2 → a ≠ b → q1 + (a : ℤ) * t1 ≠ q1 + (b : ℤ) * t1)
    (hdisj2 : ∀ a b : ℕ, a < n2 → b < n2 → q2 + (a : ℤ) * t2 ≠ q1 + (b : ℤ) * t1)
    (hi : i < n) (hi2 : i < n2)
    (ha : m (p1 + (i : ℤ) * s1) = m2 (q1 + (i : ℤ) * t1))
    (hb : m (p2 + (i : ℤ) * s2) = m2 (q2 + (i : ℤ) * t2)) :
    (subtract_nowrap_uint8 m p1 p2 (n : ℤ) s1 s2).mem (p1 + (i : ℤ) * s1)
      = (subtract_nowrap_uint8 m2 q1 q2 (n2 : ℤ) t1 t2).mem (q1 + (i : ℤ) * t1) := by
  unfold subtract_nowrap_uint8
  rw [Int.toNat_natCast, Int.toNat_natCast]
  rw [subLoop_mem_write s1 s2 n m p1 p2 i hinj1 hdisj1 hi]
  rw [subLoop_mem_write t1 t2 n2 m2 q1 q2 i hinj2 hdisj2 hi2]
  rw [ha, hb]

/-- A memory agreeing with `memA` on the pair (5, 3), placed at addresses
50 and 60, but different everywhere else. -/
def memC : ℤ → ℕ := fun q =>
  if q = 50 then 5 else if q = 60 then 3 else if q = 51 then 200 else if q = 61 then 123 else 0

theorem claimC9_witness :
    (subtract_nowrap_uint8 memA 0 1 1 1 1).mem 0
      = (subtract_nowrap_uint8 memC 50 60 2 1 1).mem 50 := by
  have h := claimC9_per_index_independence memA memC 0 1 50 60 1 1 1 1 1 2 0
    (fun a b _ _ hab hc => absurd (by omega : a = b) hab)
    (by
      intro a b ha hb hc
      omega)
    (fun a b _ _ hab hc => absurd (by omega : a = b) hab)
    (by
      intro a b ha hb hc
      omega)
    (by omega) (by omega)
    (by norm_num [memA, memC])
    (by norm_num [memA, memC])
  norm_num at h
  exact h

/-- The numpy type-code for unsigned 8-bit integers (`NPY_UINT8`, an alias
of `NPY_UBYTE` in the numpy type-number enumeration). -/
def NPY_UINT8 : ℕ := 2

/-- The signature-relevant arguments of a `PyUFunc_FromFuncAndData` call:
the number of registered type signatures, the input count, the output
count, the registered types table, and the ufunc name. -/
structure UFuncSignatureCall where
  ntypes : ℕ
  nin : ℕ
  nout : ℕ
  typesTable : List ℕ
  ufuncName : String

/-- The static table `static char types[2] = {NPY_UINT8, NPY_UINT8}` of the
C file. -/
def types : List ℕ := [NPY_UINT8, NPY_UINT8]

/-- The registration call of the `PY_VERSION_HEX >= 0x03000000` path in
`PyInit__npufunc`: `PyUFunc_FromFuncAndData(funcs, data, types, 1, 2, 0,
PyUFunc_None, "subtract_nowrap", "subtract_nowrap_docstring", 0)`. -/
def registrationPy3 : UFuncSignatureCall :=
  ⟨1, 2, 0, types, "subtract_nowrap"⟩

/-- The registration call of the pre-Python-3 path in `init_npufunc`:
`PyUFunc_FromFuncAndData(funcs, data, types, 1, 2, 1, PyUFunc_None,
"subtract_nowrap", "subtract_nowrap_docstring", 0)`. -/
def registrationPy2 : UFuncSignatureCall :=
  ⟨1, 2, 1, types, "subtract_nowrap"⟩

/-- Claim C8 fails on the code: it is not true that the output-count
argument and the types-table length describe one uint8 output in both
registration paths.  The post-Python-3 path passes output count 0, and the
types table has 2 entries rather than the ntypes * (nin + 1) = 3 entries
that two uint8 inputs plus one uint8 output would require. -/
theorem claimC8_counterexample :
    ¬ (registrationPy3.nout = 1 ∧ registrationPy2.nout = 1
        ∧ registrationPy3.typesTable.length
            = registrationPy3.ntypes * (registrationPy3.nin + 1)
        ∧ registrationPy2.typesTable.length
            = registrationPy2.ntypes * (registrationPy2.nin + 1)) := by
  decide

/-- Claim C8 amended: both paths register the kernel under the name
"subtract_nowrap" with exactly two inputs and the two-entry uint8 types
table, but the output-count argument is 0 in the post-Python-3 path and 1
in the pre-Python-3 path: only the pre-Python-3 path declares one output,
the types table contains entries for the two uint8 inputs only, and the
two paths differ in their output count. -/
theorem claimC8_amended :
    registrationPy3.nin = 2 ∧ registrationPy2.nin = 2
    ∧ registrationPy3.nout = 0 ∧ registrationPy2.nout = 1
    ∧ registrationPy3.typesTable = [NPY_UINT8, NPY_UINT8]
    ∧ registrationPy2.typesTable = [NPY_UINT8, NPY_UINT8]
    ∧ registrationPy3.typesTable.length = 2
    ∧ registrationPy3.ufuncName = "subtract_nowrap"
    ∧ registrationPy2.ufuncName = "subtract_nowrap" :=
  ⟨rfl, rfl, rfl, rfl, rfl, rfl, rfl, rfl, rfl⟩

end SubtractNowrap
